import Mathlib

/-!
Shallow embedding of `src/onedb/core/connection.py`: the generic
`ConnectionPool` and the multi-pool `ConnectionManager`.

Modelling conventions:

* A raw connection is an element of an opaque type `R`.  For theorems that
  need distinct fresh connections we take `R = ℕ` and a factory that returns
  the index of the call, reflecting that Python objects created by successive
  factory calls have distinct identities.
* The factory `create_func` is modelled as `createFunc : ℕ → Option R`,
  giving the result of the n-th factory call (counting from 0); `none`
  models the call raising an exception.  The `created` counter of the state
  records how many factory calls have been made.
* Exceptions escaping `acquire` are modelled as constructors of
  `AcquireResult`, named after the spec's error taxonomy:
  `poolClosedError` models the `RuntimeError("Connection pool is closed")`
  of the source, `acquireTimeoutError` models the `TimeoutError` raised when
  the wait budget is exhausted, and `resourceCreationError` models an
  exception of the factory propagating out of `acquire`.
* Invocations of `self._close_func` via `_safe_close` are recorded in the
  `destroyed` log of the state; `_safe_close` suppresses every exception the
  close function may raise, so the invocation log is all that is observable.
* Time is modelled in tenths of a second (deciseconds): the hard-coded
  `get(timeout=0.1)` waits 1 unit, the poll interval `get(timeout=0.5)`
  waits 5 units.  In this sequential model a `Queue.get` on an empty queue
  always waits its full timeout and raises `Empty`, and a `get` on a
  non-empty queue returns its front element immediately.
* `queue.Queue(maxsize=n)` is unbounded for `n = 0`, so "queue full" means
  `maxSize ≠ 0 ∧ maxSize ≤ length`.
* `Queue.put` in `_initialize` can block only when more than `max_size`
  connections are created there, i.e. only when `min_size > max_size`; all
  theorems below assume `min_size ≤ max_size`, where the blocking case is
  unreachable, so `put` is modelled as appending to the queue.
-/

namespace OneDB

/-- Outcome of `ConnectionPool.acquire`: either a connection, or one of the
three errors of the acquisition path (closed pool, factory failure,
timeout). -/
inductive AcquireResult (R : Type) where
  | ok (conn : R)
  | poolClosedError
  | resourceCreationError
  | acquireTimeoutError
deriving DecidableEq

/-- Constructor arguments of `ConnectionPool.__init__`: the factory, the
bounds, the default acquire timeout (in deciseconds) and the validation
predicate. -/
structure PoolConfig (R : Type) where
  createFunc : ℕ → Option R
  maxSize : ℕ
  minSize : ℕ
  timeout : ℕ
  validateFunc : R → Bool

/-- Mutable state of a `ConnectionPool`: the idle queue `self._pool` (front
of the list = front of the FIFO queue), the tracked counter `self._size`
(an `ℤ` because the Python counter is a plain int that the code decrements
without a lower-bound check), the `self._closed` flag, the number of factory
calls made so far, and the log of connections handed to `_safe_close`. -/
structure PoolState (R : Type) where
  pool : List R
  size : ℤ
  closed : Bool
  created : ℕ
  destroyed : List R
deriving DecidableEq

variable {R : Type}

/-- Embedding of `ConnectionPool._safe_close`: the close function is invoked
on `c` (recorded in the `destroyed` log) and any exception it raises is
suppressed. -/
def safeClose (s : PoolState R) (c : R) : PoolState R :=
  { s with destroyed := s.destroyed ++ [c] }

/-- Whether `self._pool.put_nowait` would raise `Full`: a `queue.Queue` with
`maxsize = 0` is unbounded, otherwise it is full when it holds at least
`maxsize` items. -/
def isFull (cfg : PoolConfig R) (q : List R) : Bool :=
  decide (cfg.maxSize ≠ 0 ∧ cfg.maxSize ≤ q.length)

/-- Loop body of `ConnectionPool._initialize`: up to `n` iterations, each
calling the factory, putting the new connection into the queue and
incrementing `size`; the first factory exception breaks out of the loop. -/
def initPoolLoop (cfg : PoolConfig R) : ℕ → PoolState R → PoolState R
  | 0, s => s
  | n + 1, s =>
    match cfg.createFunc s.created with
    | some c =>
        initPoolLoop cfg n
          { s with pool := s.pool ++ [c], size := s.size + 1,
                   created := s.created + 1 }
    | none => s

/-- Embedding of `ConnectionPool.__init__`: fresh state followed by
`_initialize`, which pre-creates up to `min_size` connections. -/
def initPool (cfg : PoolConfig R) : PoolState R :=
  initPoolLoop cfg cfg.minSize
    { pool := [], size := 0, closed := false, created := 0, destroyed := [] }

/-- Embedding of `timeout = timeout or self._timeout`: `None` and the falsy
value `0` both select the pool's default timeout. -/
def effectiveTimeout (cfg : PoolConfig R) (t : Option ℕ) : ℕ :=
  match t with
  | none => cfg.timeout
  | some x => if x = 0 then cfg.timeout else x

/-- Embedding of the wait loop of `ConnectionPool.acquire` (the
`while time.time() - start_time < timeout` loop): `w` is the time elapsed
since `start_time` in deciseconds.  While the deadline has not passed, a
`get(timeout=0.5)` either returns the front of the queue immediately
(validated: returned if valid, destroyed and `size` decremented otherwise)
or, on an empty queue, raises `Empty` after 5 deciseconds and the loop
continues.  The returned `ℕ` is the elapsed loop time at exit. -/
def waitLoop (cfg : PoolConfig R) (s : PoolState R) (t w : ℕ) :
    AcquireResult R × PoolState R × ℕ :=
  if h : w < t then
    match hp : s.pool with
    | [] => waitLoop cfg s t (w + 5)
    | c :: rest =>
      if cfg.validateFunc c then (.ok c, { s with pool := rest }, w)
      else
        waitLoop cfg
          { s with pool := rest, size := s.size - 1,
                   destroyed := s.destroyed ++ [c] } t w
  else (.acquireTimeoutError, s, w)
termination_by (t - w, s.pool.length)
decreasing_by
  · exact Prod.Lex.left _ _ (by omega)
  · exact Prod.Lex.right (t - w) (by simp [hp])

/-- Second half of `ConnectionPool.acquire` (lines 106-129): create a new
connection if `size < max_size` (this path may surface the factory's
exception), otherwise enter the wait loop.  `e0` is the time already spent
in the initial `get(timeout=0.1)`. -/
def acquireRest (cfg : PoolConfig R) (s : PoolState R) (t e0 : ℕ) :
    AcquireResult R × PoolState R × ℕ :=
  if s.size < (cfg.maxSize : ℤ) then
    match cfg.createFunc s.created with
    | some c =>
        (.ok c, { s with size := s.size + 1, created := s.created + 1 }, e0)
    | none => (.resourceCreationError, { s with created := s.created + 1 }, e0)
  else
    match waitLoop cfg s t 0 with
    | (r, s1, w) => (r, s1, e0 + w)

/-- Embedding of `ConnectionPool.acquire`: refuse if closed, resolve the
effective timeout, try a `get(timeout=0.1)` from the idle queue (returning
the front if valid, destroying it and decrementing `size` if invalid), and
continue with creation or the wait loop.  The final `ℕ` is the total time
the call spent waiting on the queue, in deciseconds. -/
def acquire (cfg : PoolConfig R) (s : PoolState R) (t : Option ℕ) :
    AcquireResult R × PoolState R × ℕ :=
  if s.closed then (.poolClosedError, s, 0)
  else
    match s.pool with
    | c :: rest =>
      if cfg.validateFunc c then (.ok c, { s with pool := rest }, 0)
      else
        acquireRest cfg
          { s with pool := rest, size := s.size - 1,
                   destroyed := s.destroyed ++ [c] } (effectiveTimeout cfg t) 0
    | [] => acquireRest cfg s (effectiveTimeout cfg t) 1

/-- Embedding of `ConnectionPool.release`: a closed pool unconditionally
destroys the connection; otherwise an invalid connection is destroyed and
`size` decremented, a valid one is pushed back with `put_nowait` — and if
the queue is full the `Full` exception is caught, the connection destroyed
and `size` decremented. -/
def release (cfg : PoolConfig R) (s : PoolState R) (c : R) : PoolState R :=
  if s.closed then safeClose s c
  else if cfg.validateFunc c then
    if isFull cfg s.pool then { (safeClose s c) with size := s.size - 1 }
    else { s with pool := s.pool ++ [c] }
  else { (safeClose s c) with size := s.size - 1 }

/-- Embedding of `ConnectionPool.close`: set the closed flag, drain the idle
queue destroying every connection in it, and reset `size` to 0. -/
def close (s : PoolState R) : PoolState R :=
  { s with closed := true, pool := [], size := 0,
           destroyed := s.destroyed ++ s.pool }

/-- State of a `ConnectionManager`: the registry dict `self._pools`
(modelled as an association list where the first binding of a name is the
current one) and the default pool name `self._default`. -/
structure ManagerState (P : Type) where
  pools : List (String × P)
  default : Option String

/-- Embedding of `ConnectionManager.__init__`. -/
def emptyManager {P : Type} : ManagerState P := ⟨[], none⟩

/-- Embedding of `ConnectionManager.add_pool`: overwrite the binding for
`name` and make it the default if `isDefault` is set or no default exists
yet. -/
def addPool {P : Type} (m : ManagerState P) (name : String) (p : P)
    (isDefault : Bool) : ManagerState P :=
  { pools := (name, p) :: m.pools.filter (fun x => x.1 ≠ name),
    default := if isDefault || m.default.isNone then some name else m.default }

/-- Embedding of `ConnectionManager.get_pool`: `name or self._default`
resolves a `None` (and the falsy empty string) to the default name; an
unregistered resolved name raises `KeyError`, modelled as `none`. -/
def getPool {P : Type} (m : ManagerState P) (name : Option String) :
    Option P :=
  let resolved : Option String :=
    match name with
    | none => m.default
    | some n => if n = "" then m.default else some n
  match resolved with
  | none => none
  | some n => (m.pools.find? (fun x => x.1 = n)).map (fun x => x.2)

/-- Exit time of the wait loop on a queue that stays empty: starting at
elapsed time `w`, the loop sleeps in intervals of 5 deciseconds until the
deadline `t` has passed. -/
def waitExit (t w : ℕ) : ℕ :=
  if w < t then w + 5 * ((t - w + 4) / 5) else w

/-- On an empty idle queue the wait loop never obtains a connection: it
leaves the state untouched and raises the timeout error at time
`waitExit t w`. -/
theorem waitLoop_nil (cfg : PoolConfig R) (s : PoolState R)
    (hp : s.pool = []) (t w : ℕ) :
    waitLoop cfg s t w = (.acquireTimeoutError, s, waitExit t w) := by
  have key : ∀ n t w, t - w ≤ n →
      waitLoop cfg s t w = (.acquireTimeoutError, s, waitExit t w) := by
    intro n
    induction n with
    | zero =>
      intro t w hn
      have hw : ¬ w < t := by omega
      rw [waitLoop]
      simp [hw, waitExit]
    | succ n ih =>
      intro t w hn
      by_cases hw : w < t
      · rw [waitLoop]
        simp only [hw, dite_true]
        split
        · rw [ih t (w + 5) (by omega)]
          have hwe : waitExit t (w + 5) = waitExit t w := by
            unfold waitExit
            by_cases hw5 : w + 5 < t <;> simp [hw5, hw] <;> omega
          rw [hwe]
        · rename_i c rest heq
          rw [hp] at heq
          exact absurd heq (by simp)
      · rw [waitLoop]
        simp [hw, waitExit]
  exact key (t - w) t w le_rfl

/-- The wait loop never touches the `closed` flag or the `created` counter,
and the idle queue it leaves behind is a suffix of the one it started
from. -/
theorem waitLoop_closed (cfg : PoolConfig R) :
    ∀ n (s : PoolState R) t w, (t - w) + s.pool.length ≤ n →
      ((waitLoop cfg s t w).2.1).closed = s.closed := by
  intro n
  induction n with
  | zero =>
    intro s t w hn
    have hw : ¬ w < t := by omega
    rw [waitLoop]
    simp [hw]
  | succ n ih =>
    intro s t w hn
    by_cases hw : w < t
    · rw [waitLoop]
      rcases hp : s.pool with _ | ⟨c, rest⟩
      · simp only [hw, dite_true, hp]
        exact ih s t (w + 5) (by omega)
      · simp only [hw, dite_true, hp]
        by_cases hv : cfg.validateFunc c
        · simp [hv]
        · simp only [hv, if_false, Bool.false_eq_true]
          exact ih _ t w
            (by rw [hp] at hn; simp only [List.length_cons] at hn; simp; omega)
    · rw [waitLoop]
      simp [hw]

/-- C9: the first pool ever added to a `ConnectionManager` becomes the
default and a pool added with `default=true` becomes the default, so after
`add_pool("a", pool_a)` and `add_pool("b", pool_b)` a nameless `get_pool()`
resolves to `pool_a`, and after a further `add_pool("c", pool_c,
default=true)` it resolves to `pool_c`. -/
theorem manager_default_resolution (pa pb pc : ℕ) :
    getPool (addPool (addPool (emptyManager : ManagerState ℕ) "a" pa false)
        "b" pb false) none = some pa ∧
    getPool (addPool (addPool (addPool (emptyManager : ManagerState ℕ)
        "a" pa false) "b" pb false) "c" pc true) none = some pc := by
  constructor <;> rfl

/-- C10: an explicit `timeout=0` is falsy in `timeout or self._timeout`, so
`acquire` with timeout 0 behaves identically to `acquire` with no timeout
argument — it waits up to the pool's default timeout instead of timing out
immediately. -/
theorem acquire_timeout_zero_default (cfg : PoolConfig R) (s : PoolState R) :
    acquire cfg s (some 0) = acquire cfg s none := rfl

/-- Helper: neither branch of `acquire` ever changes the `closed` flag of
the pool state. -/
theorem acquire_preserves_closed (cfg : PoolConfig R) (s : PoolState R)
    (t : Option ℕ) : ((acquire cfg s t).2.1).closed = s.closed := by
  have hrest : ∀ (s1 : PoolState R) tt e0, s1.closed = s.closed →
      ((acquireRest cfg s1 tt e0).2.1).closed = s.closed := by
    intro s1 tt e0 h1
    unfold acquireRest
    by_cases hsz : s1.size < (cfg.maxSize : ℤ)
    · cases hcr : cfg.createFunc s1.created <;> simp [hsz, hcr, h1]
    · simp only [hsz, if_false]
      have hw := waitLoop_closed cfg ((tt - 0) + s1.pool.length) s1 tt 0 le_rfl
      rcases hwl : waitLoop cfg s1 tt 0 with ⟨r, s2, w2⟩
      rw [hwl] at hw
      simp only [hwl]
      simpa [h1] using hw
  by_cases hcl : s.closed = true
  · simp [acquire, hcl]
  · unfold acquire
    rw [if_neg hcl]
    split
    · rename_i c rest heq
      by_cases hv : cfg.validateFunc c = true
      · simp [hv]
      · rw [if_neg hv]
        exact hrest _ _ 0 rfl
    · exact hrest s _ 1 rfl

/-- Helper: `release` never changes the `closed` flag of the pool state. -/
theorem release_preserves_closed (cfg : PoolConfig R) (s : PoolState R)
    (c : R) : (release cfg s c).closed = s.closed := by
  unfold release safeClose
  by_cases hcl : s.closed <;> by_cases hv : cfg.validateFunc c <;>
    by_cases hf : isFull cfg s.pool <;> simp [hcl, hv, hf]

/-- C3: after `close()` every subsequent `acquire` fails immediately with
the pool-closed error and leaves the state untouched, and every `release`
of a previously acquired connection invokes the destroy callback on it,
does not re-add it to the idle queue, changes nothing else, and raises no
error to the caller (`_safe_close` suppresses an exception of the destroy
callback by construction). -/
theorem post_close_semantics (cfg : PoolConfig R) (s : PoolState R)
    (h : s.closed = true) (t : Option ℕ) (c : R) :
    acquire cfg s t = (.poolClosedError, s, 0) ∧
    release cfg s c = { s with destroyed := s.destroyed ++ [c] } := by
  constructor
  · simp [acquire, h]
  · simp [release, safeClose, h]

/-- Witness for C3 at a concrete closed pool. -/
theorem post_close_semantics_witness :
    acquire (PoolConfig.mk (fun n => some n) 2 0 300 (fun _ => true))
        (PoolState.mk ([] : List ℕ) 0 true 0 []) none
      = (.poolClosedError, PoolState.mk [] 0 true 0 [], 0) ∧
    release (PoolConfig.mk (fun n => some n) 2 0 300 (fun _ => true))
        (PoolState.mk ([] : List ℕ) 0 true 0 []) 7
      = { PoolState.mk ([] : List ℕ) 0 true 0 [] with
            destroyed := [] ++ [7] } :=
  post_close_semantics _ _ rfl none 7

/-- C6: on an open pool with an empty idle queue and `size < max_size`, a
factory failure during `acquire` is surfaced to the caller immediately: the
factory is called exactly once (no internal retry, `created` grows by one)
and the tracked `size` is unchanged, because `self._size += 1` runs only
after a successful creation. -/
theorem creation_error_no_retry (cfg : PoolConfig R) (s : PoolState R)
    (hcl : s.closed = false) (hp : s.pool = [])
    (hsz : s.size < (cfg.maxSize : ℤ))
    (hfail : cfg.createFunc s.created = none) (t : Option ℕ) :
    acquire cfg s t
      = (.resourceCreationError, { s with created := s.created + 1 }, 1) := by
  unfold acquire acquireRest
  simp [hcl, hp, hsz, hfail]

/-- Witness for C6 at a concrete pool whose factory always fails. -/
theorem creation_error_no_retry_witness :
    acquire (PoolConfig.mk (fun _ => (none : Option ℕ)) 3 0 300
        (fun _ => true)) (PoolState.mk [] 0 false 0 []) none
      = (.resourceCreationError, PoolState.mk [] 0 false 1 [], 1) :=
  creation_error_no_retry _ _ rfl rfl (by decide) rfl none

/-- C8: `close` sets the closed flag, destroys exactly the idle connections
(the `destroyed` log grows by precisely the idle queue, so checked-out
connections are untouched), empties the idle queue and resets `size` to 0;
and the flag is monotone: `acquire` and `release` never change it and a
second `close` keeps it set, so once true it is never reset. -/
theorem close_marks_and_drains (cfg : PoolConfig R) (s : PoolState R)
    (t : Option ℕ) (c : R) :
    (close s).closed = true ∧ (close s).pool = [] ∧ (close s).size = 0 ∧
    (close s).destroyed = s.destroyed ++ s.pool ∧
    ((acquire cfg s t).2.1).closed = s.closed ∧
    (release cfg s c).closed = s.closed ∧
    (close (close s)).closed = true := by
  refine ⟨rfl, rfl, rfl, rfl, ?_, ?_, rfl⟩
  · exact acquire_preserves_closed cfg s t
  · exact release_preserves_closed cfg s c

/-- C4 (amended): against an open pool whose tracked size has reached
`max_size` and whose idle queue stays empty, `acquire` does not block
indefinitely: it terminates with the timeout error, leaves the pool state
untouched, and spends `1 + waitExit t 0` deciseconds waiting, which is at
most `t + 5` deciseconds — the requested bound plus the 0.1 s initial idle
wait and up to one 0.5 s poll interval of overshoot past the deadline. -/
theorem acquire_timeout_terminates (cfg : PoolConfig R) (s : PoolState R)
    (hcl : s.closed = false) (hp : s.pool = [])
    (hsz : ¬ s.size < (cfg.maxSize : ℤ)) (t : Option ℕ) :
    acquire cfg s t
      = (.acquireTimeoutError, s,
          1 + waitExit (effectiveTimeout cfg t) 0) ∧
    1 + waitExit (effectiveTimeout cfg t) 0 ≤ effectiveTimeout cfg t + 5 := by
  constructor
  · unfold acquire acquireRest
    simp only [hcl, if_false, Bool.false_eq_true, hp, hsz]
    rw [waitLoop_nil cfg s hp]
  · unfold waitExit
    by_cases h0 : (0 : ℕ) < effectiveTimeout cfg t <;> simp [h0] <;> omega

/-- Witness for the amended C4 at a concrete saturated pool with a 0.7 s
timeout. -/
theorem acquire_timeout_terminates_witness :
    acquire (PoolConfig.mk (fun n => some n) 1 1 300 (fun _ => true))
        (PoolState.mk ([] : List ℕ) 1 false 1 []) (some 7)
      = (.acquireTimeoutError, PoolState.mk [] 1 false 1 [],
          1 + waitExit (effectiveTimeout (PoolConfig.mk
            (fun n => some (n : ℕ)) 1 1 300 (fun _ => true)) (some 7)) 0) ∧
    1 + waitExit (effectiveTimeout (PoolConfig.mk (fun n => some (n : ℕ))
        1 1 300 (fun _ => true)) (some 7)) 0
      ≤ effectiveTimeout (PoolConfig.mk (fun n => some (n : ℕ)) 1 1 300
          (fun _ => true)) (some 7) + 5 :=
  acquire_timeout_terminates _ _ rfl rfl (by decide) (some 7)

/-- C4 (counterexample): with a 0.2 s timeout (2 deciseconds) against a
saturated pool with an empty idle queue, `acquire` raises the timeout error
only after 6 deciseconds (0.6 s) of waiting even in this ideal model with
zero scheduling slack — triple the requested bound, refuting "within
roughly t seconds plus small scheduling slack past the requested bound". -/
theorem acquire_timeout_fidelity_cex :
    acquire (PoolConfig.mk (fun n => some n) 1 1 300 (fun _ => true))
        (PoolState.mk ([] : List ℕ) 1 false 1 []) (some 2)
      = (.acquireTimeoutError, PoolState.mk [] 1 false 1 [], 6) ∧
    ¬ (6 : ℕ) ≤ 2 + 1 := by
  constructor
  · unfold acquire acquireRest
    rw [waitLoop_nil _ _ rfl]
    norm_num [waitExit, effectiveTimeout]
  · omega

/-- Helper for C7: the warm-start loop against a factory that succeeds on
calls `0, ..., k-1` and fails from call `k` on stops at the first failure,
having created exactly `k - created` further connections. -/
theorem initPoolLoop_firstFail (cfg : PoolConfig ℕ) (k : ℕ)
    (hcf : ∀ n, cfg.createFunc n = if n < k then some n else none) :
    ∀ (n : ℕ) (s : PoolState ℕ), s.created ≤ k → k ≤ s.created + n →
      (initPoolLoop cfg n s).size = s.size + ((k - s.created : ℕ) : ℤ) ∧
      (initPoolLoop cfg n s).pool.length = s.pool.length + (k - s.created) ∧
      (initPoolLoop cfg n s).created = k ∧
      (initPoolLoop cfg n s).closed = s.closed := by
  intro n
  induction n with
  | zero =>
    intro s h1 h2
    have : s.created = k := by omega
    simp [initPoolLoop, this]
  | succ n ih =>
    intro s h1 h2
    by_cases hlt : s.created < k
    · have := ih { s with pool := s.pool ++ [s.created], size := s.size + 1,
                          created := s.created + 1 } (by simp; omega)
        (by simp; omega)
      unfold initPoolLoop
      rw [hcf s.created, if_pos hlt]
      simp only at this
      refine ⟨?_, ?_, ?_, ?_⟩ <;> simp [this.1, this.2.1, this.2.2.1,
        this.2.2.2] <;> [skip; skip] <;> push_cast <;> omega
    · have : s.created = k := by omega
      unfold initPoolLoop
      rw [hcf s.created, if_neg hlt]
      simp [this]

/-- C7: constructing a pool whose factory succeeds on its first `k` calls
and then fails, with `k < min_size ≤ max_size`, raises no construction-time
error (the warm-start loop swallows the failure via `break`) and yields an
open pool tracking exactly `k` connections, all idle. -/
theorem warm_start_tolerance (cfg : PoolConfig ℕ) (k : ℕ)
    (hcf : ∀ n, cfg.createFunc n = if n < k then some n else none)
    (hk : k < cfg.minSize) (hmm : cfg.minSize ≤ cfg.maxSize) :
    (initPool cfg).size = (k : ℤ) ∧ (initPool cfg).pool.length = k ∧
    (initPool cfg).created = k ∧ (initPool cfg).closed = false := by
  have h := initPoolLoop_firstFail cfg k hcf cfg.minSize
    { pool := [], size := 0, closed := false, created := 0, destroyed := [] }
    (Nat.zero_le k) (by show k ≤ 0 + cfg.minSize; omega)
  simp only at h
  unfold initPool
  refine ⟨?_, ?_, ?_, ?_⟩ <;> simp [h.1, h.2.1, h.2.2.1, h.2.2.2]

/-- Witness for C7: `min_size = 3`, `max_size = 5`, factory failing on its
second call (call index 1) yields a pool of size 1. -/
theorem warm_start_tolerance_witness :
    (initPool (PoolConfig.mk (fun n => if n < 1 then some n else none)
        5 3 300 (fun _ => true))).size = ((1 : ℕ) : ℤ) ∧
    (initPool (PoolConfig.mk (fun n => if n < 1 then some n else none)
        5 3 300 (fun _ => true))).pool.length = 1 ∧
    (initPool (PoolConfig.mk (fun n => if n < 1 then some n else none)
        5 3 300 (fun _ => true))).created = 1 ∧
    (initPool (PoolConfig.mk (fun n => if n < 1 then some n else none)
        5 3 300 (fun _ => true))).closed = false :=
  warm_start_tolerance _ 1 (fun n => rfl) (by decide) (by decide)

/-- A pool state together with the list of connections handed out by
successful `acquire` calls and not yet passed back to `release`. -/
structure Tracked (R : Type) where
  ps : PoolState R
  out : List R

/-- Checked-out connections after an `acquire`, as a function of its
result: a successful call checks its connection out. -/
def acqOut (out : List R) : AcquireResult R → List R
  | .ok c => out ++ [c]
  | _ => out

/-- One well-behaved client operation on a pool: an `acquire` with an
arbitrary timeout argument, or a `release` of a connection previously
returned by a successful `acquire` and not yet released. -/
inductive PoolStep [DecidableEq R] (cfg : PoolConfig R) :
    Tracked R → Tracked R → Prop where
  | acq (st : Tracked R) (t : Option ℕ) :
      PoolStep cfg st
        ⟨(acquire cfg st.ps t).2.1, acqOut st.out (acquire cfg st.ps t).1⟩
  | rel (st : Tracked R) (c : R) (hc : c ∈ st.out) :
      PoolStep cfg st ⟨release cfg st.ps c, st.out.erase c⟩

/-- Reflexive-transitive closure of `PoolStep`: every state reachable from
`a` by a sequence of well-behaved operations. -/
inductive ReachFrom [DecidableEq R] (cfg : PoolConfig R) :
    Tracked R → Tracked R → Prop where
  | refl (st : Tracked R) : ReachFrom cfg st st
  | tail (a b c : Tracked R) : ReachFrom cfg a b → PoolStep cfg b c →
      ReachFrom cfg a c

/-- The tracked state right after pool construction: nothing checked
out. -/
def initTracked (cfg : PoolConfig R) : Tracked R := ⟨initPool cfg, []⟩

/-- States reachable from pool construction by well-behaved
acquire/release sequences. -/
def Reachable [DecidableEq R] (cfg : PoolConfig R) (st : Tracked R) : Prop :=
  ReachFrom cfg (initTracked cfg) st

/-- Size invariant: the pool is open, `size` counts exactly the idle plus
checked-out connections, and that count never exceeds `max_size`. -/
def SizeInv (cfg : PoolConfig R) (st : Tracked R) : Prop :=
  st.ps.closed = false ∧
  st.ps.size = ((st.ps.pool.length + st.out.length : ℕ) : ℤ) ∧
  st.ps.pool.length + st.out.length ≤ cfg.maxSize

/-- Freshness invariant, for the identity factory over `R = ℕ`: idle and
checked-out connections are pairwise distinct and all stem from past
factory calls. -/
def FreshInv (st : Tracked ℕ) : Prop :=
  st.ps.pool.Nodup ∧ st.out.Nodup ∧
  (∀ c ∈ st.ps.pool, c ∉ st.out) ∧
  (∀ c ∈ st.ps.pool, c < st.ps.created) ∧
  (∀ c ∈ st.out, c < st.ps.created)

/-- Helper: the warm-start loop appends some `j ≤ n` freshly created
connections, incrementing `size` and `created` accordingly, and touches
nothing else. -/
theorem initPoolLoop_general (cfg : PoolConfig R) :
    ∀ (n : ℕ) (s : PoolState R), ∃ j ≤ n,
      (initPoolLoop cfg n s).closed = s.closed ∧
      (initPoolLoop cfg n s).destroyed = s.destroyed ∧
      (initPoolLoop cfg n s).size = s.size + (j : ℤ) ∧
      (initPoolLoop cfg n s).pool.length = s.pool.length + j ∧
      (initPoolLoop cfg n s).created = s.created + j := by
  intro n
  induction n with
  | zero => intro s; exact ⟨0, le_rfl, by simp [initPoolLoop]⟩
  | succ n ih =>
    intro s
    unfold initPoolLoop
    cases hcr : cfg.createFunc s.created with
    | none => exact ⟨0, by omega, by simp⟩
    | some c =>
      obtain ⟨j, hj, h1, h2, h3, h4, h5⟩ :=
        ih { s with pool := s.pool ++ [c], size := s.size + 1,
                    created := s.created + 1 }
      refine ⟨j + 1, by omega, ?_⟩
      simp only at h1 h2 h3 h4 h5
      refine ⟨h1, h2, ?_, ?_, ?_⟩ <;>
        simp [h3, h4, h5] <;> push_cast <;> omega

/-- Helper: with the identity factory the warm-start loop creates exactly
`n` connections, numbered from the current `created` counter. -/
theorem initPoolLoop_id (cfg : PoolConfig ℕ)
    (hcreate : ∀ n, cfg.createFunc n = some n) :
    ∀ (n : ℕ) (s : PoolState ℕ), initPoolLoop cfg n s
      = { s with pool := s.pool ++ List.range' s.created n,
                 size := s.size + (n : ℤ), created := s.created + n } := by
  intro n
  induction n with
  | zero => intro s; simp [initPoolLoop]
  | succ n ih =>
    intro s
    unfold initPoolLoop
    rw [hcreate s.created]
    show initPoolLoop cfg n
        { s with pool := s.pool ++ [s.created], size := s.size + 1,
                 created := s.created + 1 } = _
    rw [ih]
    simp only [List.range'_succ, PoolState.mk.injEq]
    exact ⟨by simp, by push_cast; ring, trivial, by omega, trivial⟩

/-- Step equation: an open pool with an empty idle queue proceeds to the
create-or-wait phase having spent 1 decisecond in the initial `get`. -/
theorem acquire_nil (cfg : PoolConfig R) (s : PoolState R) (t : Option ℕ)
    (hcl : s.closed = false) (hp : s.pool = []) :
    acquire cfg s t = acquireRest cfg s (effectiveTimeout cfg t) 1 := by
  simp only [acquire, hcl, Bool.false_eq_true, if_false, hp]

/-- Step equation: an open pool whose idle queue starts with a valid
connection returns that connection at once. -/
theorem acquire_cons_valid (cfg : PoolConfig R) (s : PoolState R)
    (t : Option ℕ) (c : R) (rest : List R) (hcl : s.closed = false)
    (hp : s.pool = c :: rest) (hv : cfg.validateFunc c = true) :
    acquire cfg s t = (.ok c, { s with pool := rest }, 0) := by
  simp only [acquire, hcl, Bool.false_eq_true, if_false, hp, hv, if_true]

/-- Step equation: an open pool whose idle queue starts with an invalid
connection destroys it, decrements `size` and proceeds to the
create-or-wait phase. -/
theorem acquire_cons_invalid (cfg : PoolConfig R) (s : PoolState R)
    (t : Option ℕ) (c : R) (rest : List R) (hcl : s.closed = false)
    (hp : s.pool = c :: rest) (hv : cfg.validateFunc c = false) :
    acquire cfg s t = acquireRest cfg
      { s with pool := rest, size := s.size - 1,
               destroyed := s.destroyed ++ [c] } (effectiveTimeout cfg t) 0 := by
  simp only [acquire, hcl, Bool.false_eq_true, if_false, hp, hv]

/-- Step equation: under `max_size` with a succeeding factory, the
create-or-wait phase creates and returns a fresh connection, incrementing
`size`. -/
theorem acquireRest_create_some (cfg : PoolConfig R) (s : PoolState R)
    (tt e0 : ℕ) (c2 : R) (hsz : s.size < (cfg.maxSize : ℤ))
    (hcr : cfg.createFunc s.created = some c2) :
    acquireRest cfg s tt e0
      = (.ok c2, { s with size := s.size + 1, created := s.created + 1 },
          e0) := by
  simp only [acquireRest, hsz, if_true, hcr]

/-- Step equation: under `max_size` with a failing factory, the
create-or-wait phase surfaces the creation error, leaving `size`
unchanged. -/
theorem acquireRest_create_none (cfg : PoolConfig R) (s : PoolState R)
    (tt e0 : ℕ) (hsz : s.size < (cfg.maxSize : ℤ))
    (hcr : cfg.createFunc s.created = none) :
    acquireRest cfg s tt e0
      = (.resourceCreationError, { s with created := s.created + 1 }, e0) := by
  simp only [acquireRest, hsz, if_true, hcr]

/-- Step equation: at or above `max_size` with an empty idle queue, the
create-or-wait phase polls until the deadline passes and raises the
timeout error. -/
theorem acquireRest_wait_nil (cfg : PoolConfig R) (s : PoolState R)
    (tt e0 : ℕ) (hsz : ¬ s.size < (cfg.maxSize : ℤ)) (hp : s.pool = []) :
    acquireRest cfg s tt e0
      = (.acquireTimeoutError, s, e0 + waitExit tt 0) := by
  simp only [acquireRest, hsz, if_false]
  rw [waitLoop_nil cfg s hp]

/-- Case analysis of `acquire` on an open pool whose `size` is within
`max_size`: the initial `get` returns a valid connection, or an invalid one
followed by a factory call, or finds the queue empty and creates (factory
succeeding or failing), or finds the queue empty with the pool saturated
and times out. -/
theorem acquire_characterization (cfg : PoolConfig R) (s : PoolState R)
    (t : Option ℕ) (hcl : s.closed = false)
    (hmax : s.size ≤ (cfg.maxSize : ℤ)) :
    (∃ c rest, s.pool = c :: rest ∧ cfg.validateFunc c = true ∧
        acquire cfg s t = (.ok c, { s with pool := rest }, 0)) ∨
    (∃ c rest, s.pool = c :: rest ∧ cfg.validateFunc c = false ∧
        ((∃ c2, cfg.createFunc s.created = some c2 ∧
            acquire cfg s t = (.ok c2,
              { s with pool := rest, size := s.size - 1 + 1,
                       created := s.created + 1,
                       destroyed := s.destroyed ++ [c] }, 0)) ∨
         (cfg.createFunc s.created = none ∧
            acquire cfg s t = (.resourceCreationError,
              { s with pool := rest, size := s.size - 1,
                       created := s.created + 1,
                       destroyed := s.destroyed ++ [c] }, 0)))) ∨
    (s.pool = [] ∧ s.size < (cfg.maxSize : ℤ) ∧
        ((∃ c2, cfg.createFunc s.created = some c2 ∧
            acquire cfg s t = (.ok c2,
              { s with size := s.size + 1, created := s.created + 1 }, 1)) ∨
         (cfg.createFunc s.created = none ∧
            acquire cfg s t = (.resourceCreationError,
              { s with created := s.created + 1 }, 1)))) ∨
    (s.pool = [] ∧ ¬ s.size < (cfg.maxSize : ℤ) ∧
        acquire cfg s t = (.acquireTimeoutError, s,
          1 + waitExit (effectiveTimeout cfg t) 0)) := by
  cases hp : s.pool with
  | nil =>
    by_cases hsz : s.size < (cfg.maxSize : ℤ)
    · refine Or.inr (Or.inr (Or.inl ⟨rfl, hsz, ?_⟩))
      cases hcr : cfg.createFunc s.created with
      | none =>
        exact Or.inr ⟨rfl, by
          rw [acquire_nil cfg s t hcl hp,
            acquireRest_create_none cfg s _ 1 hsz hcr, hp]⟩
      | some c2 =>
        exact Or.inl ⟨c2, rfl, by
          rw [acquire_nil cfg s t hcl hp,
            acquireRest_create_some cfg s _ 1 c2 hsz hcr, hp]⟩
    · exact Or.inr (Or.inr (Or.inr ⟨rfl, hsz, by
        rw [acquire_nil cfg s t hcl hp,
          acquireRest_wait_nil cfg s _ 1 hsz hp]⟩))
  | cons c rest =>
    by_cases hv : cfg.validateFunc c = true
    · exact Or.inl ⟨c, rest, rfl, hv,
        acquire_cons_valid cfg s t c rest hcl hp hv⟩
    · have hv' : cfg.validateFunc c = false := by simpa using hv
      refine Or.inr (Or.inl ⟨c, rest, rfl, hv', ?_⟩)
      have hlt : s.size - 1 < (cfg.maxSize : ℤ) := by omega
      cases hcr : cfg.createFunc s.created with
      | none =>
        refine Or.inr ⟨rfl, ?_⟩
        rw [acquire_cons_invalid cfg s t c rest hcl hp hv',
          acquireRest_create_none cfg _ _ 0 (by simpa using hlt)
            (by simpa using hcr)]
      | some c2 =>
        refine Or.inl ⟨c2, rfl, ?_⟩
        rw [acquire_cons_invalid cfg s t c rest hcl hp hv',
          acquireRest_create_some cfg _ _ 0 c2 (by simpa using hlt)
            (by simpa using hcr)]

/-- One well-behaved step preserves the size invariant. -/
theorem sizeInv_step [DecidableEq R] (cfg : PoolConfig R)
    {st st' : Tracked R} (h : SizeInv cfg st) (hs : PoolStep cfg st st') :
    SizeInv cfg st' := by
  obtain ⟨hcl, hsz, hb⟩ := h
  cases hs with
  | acq t =>
    have hmax : st.ps.size ≤ (cfg.maxSize : ℤ) := by
      rw [hsz]; exact_mod_cast hb
    rcases acquire_characterization cfg st.ps t hcl hmax with
      ⟨c, rest, hp, hv, heq⟩ |
      ⟨c, rest, hp, hv, ⟨c2, hcr, heq⟩ | ⟨hcr, heq⟩⟩ |
      ⟨hp, hlt, ⟨c2, hcr, heq⟩ | ⟨hcr, heq⟩⟩ |
      ⟨hp, hge, heq⟩
    · rw [heq]
      dsimp only [acqOut]
      rw [hp] at hsz hb
      simp only [List.length_cons] at hsz hb
      refine ⟨hcl, ?_, ?_⟩ <;> simp <;> push_cast at hsz ⊢ <;> omega
    · rw [heq]
      dsimp only [acqOut]
      rw [hp] at hsz hb
      simp only [List.length_cons] at hsz hb
      refine ⟨hcl, ?_, ?_⟩ <;> simp <;> push_cast at hsz ⊢ <;> omega
    · rw [heq]
      dsimp only [acqOut]
      rw [hp] at hsz hb
      simp only [List.length_cons] at hsz hb
      refine ⟨hcl, ?_, ?_⟩ <;> simp <;> push_cast at hsz ⊢ <;> omega
    · rw [heq]
      dsimp only [acqOut]
      rw [hp] at hsz hb
      simp only [List.length_nil, Nat.zero_add] at hsz hb
      have hltn : st.out.length < cfg.maxSize := by
        have h2 := hlt
        rw [hsz] at h2
        exact_mod_cast h2
      refine ⟨hcl, ?_, ?_⟩
      · show st.ps.size + 1
          = ((st.ps.pool.length + (st.out ++ [c2]).length : ℕ) : ℤ)
        rw [hp, hsz]
        simp only [List.length_append, List.length_singleton, List.length_nil]
        push_cast
        omega
      · show st.ps.pool.length + (st.out ++ [c2]).length ≤ cfg.maxSize
        rw [hp]
        simp only [List.length_append, List.length_singleton, List.length_nil]
        omega
    · rw [heq]
      dsimp only [acqOut]
      rw [hp] at hsz hb
      simp only [List.length_nil, Nat.zero_add] at hsz hb
      refine ⟨hcl, ?_, ?_⟩
      · show st.ps.size = ((st.ps.pool.length + st.out.length : ℕ) : ℤ)
        rw [hp, hsz]
        simp
      · show st.ps.pool.length + st.out.length ≤ cfg.maxSize
        rw [hp]
        simp only [List.length_nil]
        omega
    · rw [heq]
      dsimp only [acqOut]
      exact ⟨hcl, hsz, hb⟩
  | rel c hc =>
    have houtpos : 0 < st.out.length := List.length_pos_of_mem hc
    have herase : (st.out.erase c).length = st.out.length - 1 :=
      List.length_erase_of_mem hc
    by_cases hv : cfg.validateFunc c = true
    · by_cases hf : isFull cfg st.ps.pool = true
      · exfalso
        simp only [isFull, decide_eq_true_eq] at hf
        omega
      · have heq : release cfg st.ps c
            = { st.ps with pool := st.ps.pool ++ [c] } := by
          simp [release, hcl, hv, hf]
        rw [heq]
        refine ⟨hcl, ?_, ?_⟩
        · show st.ps.size
            = (((st.ps.pool ++ [c]).length + (st.out.erase c).length : ℕ) : ℤ)
          rw [hsz, herase]
          simp only [List.length_append, List.length_singleton]
          omega
        · show (st.ps.pool ++ [c]).length + (st.out.erase c).length
            ≤ cfg.maxSize
          rw [herase]
          simp only [List.length_append, List.length_singleton]
          omega
    · have heq : release cfg st.ps c
          = { st.ps with size := st.ps.size - 1,
                         destroyed := st.ps.destroyed ++ [c] } := by
        simp [release, safeClose, hcl, hv]
      rw [heq]
      refine ⟨hcl, ?_, ?_⟩
      · show st.ps.size - 1
          = ((st.ps.pool.length + (st.out.erase c).length : ℕ) : ℤ)
        rw [hsz, herase]
        omega
      · show st.ps.pool.length + (st.out.erase c).length ≤ cfg.maxSize
        rw [herase]
        omega

/-- Helper: observable fields of a freshly constructed pool — open, empty
destruction log, and `size`, idle length and `created` all equal to some
`j ≤ min_size`. -/
theorem initPool_general (cfg : PoolConfig R) :
    ∃ j ≤ cfg.minSize, (initPool cfg).closed = false ∧
      (initPool cfg).destroyed = [] ∧ (initPool cfg).size = (j : ℤ) ∧
      (initPool cfg).pool.length = j ∧ (initPool cfg).created = j := by
  obtain ⟨j, hj, h1, h2, h3, h4, h5⟩ := initPoolLoop_general cfg cfg.minSize
    { pool := [], size := 0, closed := false, created := 0, destroyed := [] }
  exact ⟨j, hj, by simpa [initPool] using h1, by simpa [initPool] using h2,
    by simpa [initPool] using h3, by simpa [initPool] using h4,
    by simpa [initPool] using h5⟩

/-- The size invariant holds right after construction whenever
`min_size ≤ max_size`. -/
theorem sizeInv_init (cfg : PoolConfig R) (hmm : cfg.minSize ≤ cfg.maxSize) :
    SizeInv cfg (initTracked cfg) := by
  obtain ⟨j, hj, h1, h2, h3, h4, h5⟩ := initPool_general cfg
  refine ⟨h1, ?_, ?_⟩
  · show (initPool cfg).size
      = (((initPool cfg).pool.length + ([] : List R).length : ℕ) : ℤ)
    rw [h3, h4]
    simp
  · show (initPool cfg).pool.length + ([] : List R).length ≤ cfg.maxSize
    rw [h4]
    simp
    omega

/-- The size invariant is preserved along any well-behaved operation
sequence. -/
theorem sizeInv_reachFrom [DecidableEq R] (cfg : PoolConfig R)
    {a b : Tracked R} (h : SizeInv cfg a) (hr : ReachFrom cfg a b) :
    SizeInv cfg b := by
  induction hr with
  | refl => exact h
  | tail y z hxy hyz ih => exact sizeInv_step cfg ih hyz

/-- C1: for every pool constructed with `min_size ≤ max_size` and every
well-behaved sequence of `acquire`/`release` operations (each release
passing back a connection previously returned by a successful acquire and
not yet released), the tracked `size` satisfies `0 ≤ size ≤ max_size` after
every operation. -/
theorem pool_size_invariant [DecidableEq R] (cfg : PoolConfig R)
    (hmm : cfg.minSize ≤ cfg.maxSize) (st : Tracked R)
    (h : Reachable cfg st) :
    0 ≤ st.ps.size ∧ st.ps.size ≤ (cfg.maxSize : ℤ) := by
  obtain ⟨-, hsz, hb⟩ := sizeInv_reachFrom cfg (sizeInv_init cfg hmm) h
  refine ⟨by rw [hsz]; positivity, by rw [hsz]; exact_mod_cast hb⟩

/-- Witness for C1 at the freshly constructed pool. -/
theorem pool_size_invariant_witness :
    (0 : ℤ) ≤ (initTracked (PoolConfig.mk (fun n => some (n : ℕ)) 2 1 300
        (fun _ => true))).ps.size ∧
    (initTracked (PoolConfig.mk (fun n => some (n : ℕ)) 2 1 300
        (fun _ => true))).ps.size ≤ ((2 : ℕ) : ℤ) :=
  pool_size_invariant _ (by decide) _ (ReachFrom.refl _)

/-- The freshness invariant holds right after construction with the
identity factory. -/
theorem freshInv_init (cfg : PoolConfig ℕ)
    (hcreate : ∀ n, cfg.createFunc n = some n) :
    FreshInv (initTracked cfg) := by
  have h := initPoolLoop_id cfg hcreate cfg.minSize
    { pool := [], size := 0, closed := false, created := 0, destroyed := [] }
  show FreshInv ⟨initPool cfg, []⟩
  unfold initPool
  rw [h]
  refine ⟨?_, List.nodup_nil, ?_, ?_, ?_⟩
  · show (([] : List ℕ) ++ List.range' 0 cfg.minSize).Nodup
    simpa using List.nodup_range' 0 cfg.minSize
  · intro c hcp
    exact List.not_mem_nil c
  · intro c hcp
    show c < 0 + cfg.minSize
    simp only [List.nil_append] at hcp
    have := (List.mem_range'_1.mp hcp).2
    omega
  · intro c hcp
    exact absurd hcp (List.not_mem_nil c)

/-- One well-behaved step preserves the freshness invariant (identity
factory), given the size invariant. -/
theorem freshInv_step (cfg : PoolConfig ℕ)
    (hcreate : ∀ n, cfg.createFunc n = some n) {st st' : Tracked ℕ}
    (hsi : SizeInv cfg st) (h : FreshInv st) (hs : PoolStep cfg st st') :
    FreshInv st' := by
  obtain ⟨hcl, hsz, hb⟩ := hsi
  obtain ⟨hnp, hno, hdisj, hbp, hbo⟩ := h
  cases hs with
  | acq t =>
    have hmax : st.ps.size ≤ (cfg.maxSize : ℤ) := by
      rw [hsz]; exact_mod_cast hb
    rcases acquire_characterization cfg st.ps t hcl hmax with
      ⟨c, rest, hp, hv, heq⟩ |
      ⟨c, rest, hp, hv, ⟨c2, hcr, heq⟩ | ⟨hcr, heq⟩⟩ |
      ⟨hp, hlt, ⟨c2, hcr, heq⟩ | ⟨hcr, heq⟩⟩ |
      ⟨hp, hge, heq⟩
    · rw [heq]
      dsimp only [acqOut]
      rw [hp] at hnp hdisj hbp
      have hcrest : c ∉ rest := (List.nodup_cons.mp hnp).1
      have hrest : rest.Nodup := (List.nodup_cons.mp hnp).2
      have hcout : c ∉ st.out := hdisj c (List.mem_cons_self c rest)
      refine ⟨hrest, ?_, ?_, ?_, ?_⟩
      · show (st.out ++ [c]).Nodup
        simp [List.nodup_append, hno, hcout]
      · intro x hx
        show x ∉ st.out ++ [c]
        have h1 : x ∉ st.out := hdisj x (List.mem_cons_of_mem c hx)
        have h2 : x ≠ c := fun he => hcrest (he ▸ hx)
        simp [List.mem_append, h1, h2]
      · intro x hx
        exact hbp x (List.mem_cons_of_mem c hx)
      · intro x hx
        rcases List.mem_append.mp hx with h1 | h1
        · exact hbo x h1
        · rw [List.mem_singleton.mp h1]
          exact hbp c (List.mem_cons_self c rest)
    · have hc2 : c2 = st.ps.created := by
        rw [hcreate st.ps.created] at hcr
        exact (Option.some.injEq _ _ ▸ hcr :
          st.ps.created = c2).symm
      rw [heq]
      dsimp only [acqOut]
      rw [hp] at hnp hdisj hbp
      have hrest : rest.Nodup := (List.nodup_cons.mp hnp).2
      refine ⟨hrest, ?_, ?_, ?_, ?_⟩
      · show (st.out ++ [c2]).Nodup
        have : c2 ∉ st.out := by
          intro hmem
          have := hbo c2 hmem
          omega
        simp [List.nodup_append, hno, this]
      · intro x hx
        show x ∉ st.out ++ [c2]
        have h1 : x ∉ st.out := hdisj x (List.mem_cons_of_mem c hx)
        have h2 : x ≠ c2 := by
          have := hbp x (List.mem_cons_of_mem c hx)
          omega
        simp [List.mem_append, h1, h2]
      · intro x hx
        show x < st.ps.created + 1
        have := hbp x (List.mem_cons_of_mem c hx)
        omega
      · intro x hx
        show x < st.ps.created + 1
        rcases List.mem_append.mp hx with h1 | h1
        · have := hbo x h1
          omega
        · rw [List.mem_singleton.mp h1]
          omega
    · rw [hcreate st.ps.created] at hcr
      cases hcr
    · have hc2 : c2 = st.ps.created := by
        rw [hcreate st.ps.created] at hcr
        exact (Option.some.injEq _ _ ▸ hcr :
          st.ps.created = c2).symm
      rw [heq]
      dsimp only [acqOut]
      refine ⟨hnp, ?_, ?_, ?_, ?_⟩
      · show (st.out ++ [c2]).Nodup
        have : c2 ∉ st.out := by
          intro hmem
          have := hbo c2 hmem
          omega
        simp [List.nodup_append, hno, this]
      · intro x hx
        show x ∉ st.out ++ [c2]
        have h1 : x ∉ st.out := hdisj x hx
        have h2 : x ≠ c2 := by
          have := hbp x hx
          omega
        simp [List.mem_append, h1, h2]
      · intro x hx
        show x < st.ps.created + 1
        have := hbp x hx
        omega
      · intro x hx
        show x < st.ps.created + 1
        rcases List.mem_append.mp hx with h1 | h1
        · have := hbo x h1
          omega
        · rw [List.mem_singleton.mp h1]
          omega
    · rw [hcreate st.ps.created] at hcr
      cases hcr
    · rw [heq]
      dsimp only [acqOut]
      exact ⟨hnp, hno, hdisj, hbp, hbo⟩
  | rel c hc =>
    have hcpool : c ∉ st.ps.pool := fun hcp => hdisj c hcp hc
    have hcerase : c ∉ st.out.erase c := fun hce =>
      (hno.mem_erase_iff.mp hce).1 rfl
    have hsub : ∀ x, x ∈ st.out.erase c → x ∈ st.out :=
      fun x hx => List.mem_of_mem_erase hx
    have hdrop : FreshInv
        ⟨{ st.ps with size := st.ps.size - 1,
                      destroyed := st.ps.destroyed ++ [c] },
          st.out.erase c⟩ := by
      refine ⟨hnp, hno.erase c, ?_, hbp, ?_⟩
      · intro x hx hxe
        exact hdisj x hx (hsub x hxe)
      · intro x hx
        exact hbo x (hsub x hx)
    by_cases hv : cfg.validateFunc c = true
    · by_cases hf : isFull cfg st.ps.pool = true
      · have heq : release cfg st.ps c
            = { st.ps with size := st.ps.size - 1,
                           destroyed := st.ps.destroyed ++ [c] } := by
          simp [release, safeClose, hcl, hv, hf]
        rw [heq]
        exact hdrop
      · have heq : release cfg st.ps c
            = { st.ps with pool := st.ps.pool ++ [c] } := by
          simp [release, hcl, hv, hf]
        rw [heq]
        refine ⟨?_, hno.erase c, ?_, ?_, ?_⟩
        · show (st.ps.pool ++ [c]).Nodup
          simp [List.nodup_append, hnp, hcpool]
        · intro x hx
          show x ∉ st.out.erase c
          rcases List.mem_append.mp hx with h1 | h1
          · exact fun hxe => hdisj x h1 (hsub x hxe)
          · rw [List.mem_singleton.mp h1]
            exact hcerase
        · intro x hx
          show x < st.ps.created
          rcases List.mem_append.mp hx with h1 | h1
          · exact hbp x h1
          · rw [List.mem_singleton.mp h1]
            exact hbo c hc
        · intro x hx
          exact hbo x (hsub x hx)
    · have heq : release cfg st.ps c
          = { st.ps with size := st.ps.size - 1,
                         destroyed := st.ps.destroyed ++ [c] } := by
        simp [release, safeClose, hcl, hv]
      rw [heq]
      exact hdrop

/-- Both invariants are preserved along any well-behaved operation
sequence with the identity factory. -/
theorem invs_reachFrom (cfg : PoolConfig ℕ)
    (hcreate : ∀ n, cfg.createFunc n = some n) {a b : Tracked ℕ}
    (h : SizeInv cfg a ∧ FreshInv a) (hr : ReachFrom cfg a b) :
    SizeInv cfg b ∧ FreshInv b := by
  induction hr with
  | refl => exact h
  | tail y z hxy hyz ih =>
    exact ⟨sizeInv_step cfg ih.1 hyz,
      freshInv_step cfg hcreate ih.1 ih.2 hyz⟩

/-- Helper: a successful `acquire` returns either the head region of the
idle queue or the connection freshly created by the identity factory. -/
theorem acquire_ok_cases (cfg : PoolConfig ℕ)
    (hcreate : ∀ n, cfg.createFunc n = some n) (s : PoolState ℕ)
    (t : Option ℕ) (hcl : s.closed = false)
    (hmax : s.size ≤ (cfg.maxSize : ℤ)) (c : ℕ)
    (hok : (acquire cfg s t).1 = .ok c) :
    c ∈ s.pool ∨ c = s.created := by
  rcases acquire_characterization cfg s t hcl hmax with
    ⟨c1, rest, hp, hv, heq⟩ |
    ⟨c1, rest, hp, hv, ⟨c2, hcr, heq⟩ | ⟨hcr, heq⟩⟩ |
    ⟨hp, hlt, ⟨c2, hcr, heq⟩ | ⟨hcr, heq⟩⟩ |
    ⟨hp, hge, heq⟩
  · rw [heq] at hok
    simp only [AcquireResult.ok.injEq] at hok
    left
    rw [hp, ← hok]
    exact List.mem_cons_self c1 rest
  · rw [heq] at hok
    simp only [AcquireResult.ok.injEq] at hok
    right
    rw [← hok]
    rw [hcreate s.created] at hcr
    exact ((Option.some.injEq _ _).mp hcr).symm
  · rw [heq] at hok
    simp at hok
  · rw [heq] at hok
    simp only [AcquireResult.ok.injEq] at hok
    right
    rw [← hok]
    rw [hcreate s.created] at hcr
    exact ((Option.some.injEq _ _).mp hcr).symm
  · rw [heq] at hok
    simp at hok
  · rw [heq] at hok
    simp at hok

/-- C2: exclusivity — at any reachable state of a pool (identity factory,
`min_size ≤ max_size`), a successful `acquire` never returns a connection
that is currently checked out, so no two `acquire` calls receive the same
live connection without an intervening `release`. -/
theorem acquire_exclusivity (cfg : PoolConfig ℕ)
    (hcreate : ∀ n, cfg.createFunc n = some n)
    (hmm : cfg.minSize ≤ cfg.maxSize) (st : Tracked ℕ)
    (h : Reachable cfg st) (t : Option ℕ) (c : ℕ)
    (hok : (acquire cfg st.ps t).1 = .ok c) : c ∉ st.out := by
  obtain ⟨⟨hcl, hsz, hb⟩, ⟨hnp, hno, hdisj, hbp, hbo⟩⟩ :=
    invs_reachFrom cfg hcreate
      ⟨sizeInv_init cfg hmm, freshInv_init cfg hcreate⟩ h
  have hmax : st.ps.size ≤ (cfg.maxSize : ℤ) := by
    rw [hsz]; exact_mod_cast hb
  rcases acquire_ok_cases cfg hcreate st.ps t hcl hmax c hok with hmem | hfr
  · exact hdisj c hmem
  · intro hco
    have := hbo c hco
    omega

/-- Witness for C2 at the freshly constructed pool, whose first `acquire`
returns the pre-created connection 0. -/
theorem acquire_exclusivity_witness :
    (0 : ℕ) ∉ (initTracked (PoolConfig.mk (fun n => some (n : ℕ)) 2 1 300
        (fun _ => true))).out :=
  acquire_exclusivity _ (fun n => rfl) (by decide) _ (ReachFrom.refl _)
    none 0 rfl

/-- A connection that is gone for good: not idle, not checked out, and
produced by a past factory call, so the identity factory can never hand it
out again. -/
def Banished (c : ℕ) (st : Tracked ℕ) : Prop :=
  c ∉ st.ps.pool ∧ c ∉ st.out ∧ c < st.ps.created

/-- One well-behaved step preserves banishment, given the size
invariant. -/
theorem banished_step (cfg : PoolConfig ℕ)
    (hcreate : ∀ n, cfg.createFunc n = some n) {c : ℕ} {st st' : Tracked ℕ}
    (hsi : SizeInv cfg st) (hban : Banished c st) (hs : PoolStep cfg st st') :
    Banished c st' := by
  obtain ⟨hcl, hsz, hb⟩ := hsi
  obtain ⟨h1, h2, h3⟩ := hban
  cases hs with
  | acq t =>
    have hmax : st.ps.size ≤ (cfg.maxSize : ℤ) := by
      rw [hsz]; exact_mod_cast hb
    rcases acquire_characterization cfg st.ps t hcl hmax with
      ⟨c1, rest, hp, hv, heq⟩ |
      ⟨c1, rest, hp, hv, ⟨c2, hcr, heq⟩ | ⟨hcr, heq⟩⟩ |
      ⟨hp, hlt, ⟨c2, hcr, heq⟩ | ⟨hcr, heq⟩⟩ |
      ⟨hp, hge, heq⟩
    · rw [heq]
      dsimp only [acqOut]
      rw [hp] at h1
      have hne : c ≠ c1 := fun he => h1 (he ▸ List.mem_cons_self c1 rest)
      refine ⟨fun hm => h1 (List.mem_cons_of_mem c1 hm), ?_, h3⟩
      show c ∉ st.out ++ [c1]
      simp [List.mem_append, h2, hne]
    · have hc2 : c2 = st.ps.created := by
        rw [hcreate st.ps.created] at hcr
        exact ((Option.some.injEq _ _).mp hcr).symm
      rw [heq]
      dsimp only [acqOut]
      rw [hp] at h1
      refine ⟨fun hm => h1 (List.mem_cons_of_mem c1 hm), ?_, ?_⟩
      · show c ∉ st.out ++ [c2]
        have hne : c ≠ c2 := by omega
        simp [List.mem_append, h2, hne]
      · show c < st.ps.created + 1
        omega
    · rw [hcreate st.ps.created] at hcr
      cases hcr
    · have hc2 : c2 = st.ps.created := by
        rw [hcreate st.ps.created] at hcr
        exact ((Option.some.injEq _ _).mp hcr).symm
      rw [heq]
      dsimp only [acqOut]
      refine ⟨h1, ?_, ?_⟩
      · show c ∉ st.out ++ [c2]
        have hne : c ≠ c2 := by omega
        simp [List.mem_append, h2, hne]
      · show c < st.ps.created + 1
        omega
    · rw [hcreate st.ps.created] at hcr
      cases hcr
    · rw [heq]
      dsimp only [acqOut]
      exact ⟨h1, h2, h3⟩
  | rel c1 hc1 =>
    have hne : c1 ≠ c := fun he => h2 (he ▸ hc1)
    have hsub : ∀ x, x ∈ st.out.erase c1 → x ∈ st.out :=
      fun x hx => List.mem_of_mem_erase hx
    have h2e : c ∉ st.out.erase c1 := fun hm => h2 (hsub c hm)
    by_cases hv : cfg.validateFunc c1 = true
    · by_cases hf : isFull cfg st.ps.pool = true
      · have heq : release cfg st.ps c1
            = { st.ps with size := st.ps.size - 1,
                           destroyed := st.ps.destroyed ++ [c1] } := by
          simp [release, safeClose, hcl, hv, hf]
        rw [heq]
        exact ⟨h1, h2e, h3⟩
      · have heq : release cfg st.ps c1
            = { st.ps with pool := st.ps.pool ++ [c1] } := by
          simp [release, hcl, hv, hf]
        rw [heq]
        refine ⟨?_, h2e, h3⟩
        show c ∉ st.ps.pool ++ [c1]
        intro hm
        rcases List.mem_append.mp hm with hm1 | hm1
        · exact h1 hm1
        · exact hne (List.mem_singleton.mp hm1).symm
    · have heq : release cfg st.ps c1
          = { st.ps with size := st.ps.size - 1,
                         destroyed := st.ps.destroyed ++ [c1] } := by
        simp [release, safeClose, hcl, hv]
      rw [heq]
      exact ⟨h1, h2e, h3⟩

/-- Size invariant and banishment together are preserved along any
well-behaved operation sequence. -/
theorem banished_reachFrom (cfg : PoolConfig ℕ)
    (hcreate : ∀ n, cfg.createFunc n = some n) {c : ℕ} {a b : Tracked ℕ}
    (h : SizeInv cfg a ∧ Banished c a) (hr : ReachFrom cfg a b) :
    SizeInv cfg b ∧ Banished c b := by
  induction hr with
  | refl => exact h
  | tail y z hxy hyz ih =>
    exact ⟨sizeInv_step cfg ih.1 hyz,
      banished_step cfg hcreate ih.1 ih.2 hyz⟩

/-- C5: on an open pool, `release` validates the connection: an invalid one
is destroyed (destroy callback invoked, `size` decremented) and never
re-enters the idle queue — no later `acquire` ever returns it; a valid one
against a full idle queue is destroyed and `size` decremented without
blocking or raising; a valid one with room is pushed back into the idle
queue with `size` unchanged. -/
theorem release_validation_semantics (cfg : PoolConfig ℕ)
    (hcreate : ∀ n, cfg.createFunc n = some n)
    (hmm : cfg.minSize ≤ cfg.maxSize) :
    (∀ (s : PoolState ℕ) (c : ℕ), s.closed = false →
        cfg.validateFunc c = false →
        release cfg s c
          = { s with size := s.size - 1,
                     destroyed := s.destroyed ++ [c] }) ∧
    (∀ (s : PoolState ℕ) (c : ℕ), s.closed = false →
        cfg.validateFunc c = true → isFull cfg s.pool = true →
        release cfg s c
          = { s with size := s.size - 1,
                     destroyed := s.destroyed ++ [c] }) ∧
    (∀ (s : PoolState ℕ) (c : ℕ), s.closed = false →
        cfg.validateFunc c = true → isFull cfg s.pool = false →
        release cfg s c = { s with pool := s.pool ++ [c] }) ∧
    (∀ (st : Tracked ℕ) (c : ℕ), Reachable cfg st → c ∈ st.out →
        cfg.validateFunc c = false →
        ∀ st', ReachFrom cfg ⟨release cfg st.ps c, st.out.erase c⟩ st' →
          ∀ (t : Option ℕ), (acquire cfg st'.ps t).1 ≠ .ok c) := by
  refine ⟨?_, ?_, ?_, ?_⟩
  · intro s c hcl hv
    simp [release, safeClose, hcl, hv]
  · intro s c hcl hv hf
    simp [release, safeClose, hcl, hv, hf]
  · intro s c hcl hv hf
    simp [release, hcl, hv, hf]
  · intro st c hreach hco hv st' hreach' t hok
    obtain ⟨hsi, hfi⟩ := invs_reachFrom cfg hcreate
      ⟨sizeInv_init cfg hmm, freshInv_init cfg hcreate⟩ hreach
    obtain ⟨hnp, hno, hdisj, hbp, hbo⟩ := hfi
    have heq : release cfg st.ps c
        = { st.ps with size := st.ps.size - 1,
                       destroyed := st.ps.destroyed ++ [c] } := by
      simp [release, safeClose, hsi.1, hv]
    have hsi1 : SizeInv cfg ⟨release cfg st.ps c, st.out.erase c⟩ :=
      sizeInv_step cfg hsi (PoolStep.rel st c hco)
    have hban1 : Banished c ⟨release cfg st.ps c, st.out.erase c⟩ := by
      refine ⟨?_, ?_, ?_⟩
      · rw [heq]
        show c ∉ st.ps.pool
        exact fun hcp => hdisj c hcp hco
      · show c ∉ st.out.erase c
        intro hce
        exact (hno.mem_erase_iff.mp hce).1 rfl
      · rw [heq]
        show c < st.ps.created
        exact hbo c hco
    obtain ⟨hsi', hban'⟩ :=
      banished_reachFrom cfg hcreate ⟨hsi1, hban1⟩ hreach'
    have hmax' : st'.ps.size ≤ (cfg.maxSize : ℤ) := by
      rw [hsi'.2.1]; exact_mod_cast hsi'.2.2
    rcases acquire_ok_cases cfg hcreate st'.ps t hsi'.1 hmax' c hok with
      hmem | hfr
    · exact hban'.1 hmem
    · have := hban'.2.2
      omega

/-- Witness for C5: releasing the invalid connection 0 into a concrete open
pool destroys it and decrements `size`. -/
theorem release_validation_semantics_witness :
    release (PoolConfig.mk (fun n => some (n : ℕ)) 2 1 300
        (fun n => decide (n ≠ 0))) (PoolState.mk [] 1 false 1 []) 0
      = { PoolState.mk ([] : List ℕ) 1 false 1 [] with
            size := (1 : ℤ) - 1, destroyed := [] ++ [0] } :=
  (release_validation_semantics _ (fun n => rfl) (by decide)).1
    (PoolState.mk [] 1 false 1 []) 0 rfl rfl

end OneDB
